import Mathlib

/-!
Verification of the `HierarchicalRNNEncoder` module
(`models/pytorch/encoders/hierarchical_rnn.py`).

Modelling conventions (shallow embedding):

* A feature vector is a `List Int`; a single example is a time-indexed list of
  feature vectors; a batch tensor `[B, T, F]` is a `List (List (List Int))`
  in batch-major order.  The `batch_first` flag of the source only changes the
  memory layout (`inputs.transpose(0, 1)` at line 207): every subsequent
  operation (packing, projection, residual addition, bidirectional merging)
  acts pointwise on the per-(example, time-step) feature vectors, so the
  batch-major representation is used throughout and the transpose is a no-op
  of the model.
* The library recurrent cells (`nn.LSTM` / `nn.GRU` / `nn.RNN`), the linear
  projections (`LinearND`), the convolutional front-end (`CNNEncoder`) and its
  time-subsampling rule (`ConvOutSize`) are external collaborators: they are
  modelled as opaque functions bundled in `Params`, applied per example
  (a recurrent cell with a fresh per-batch initial hidden state processes each
  example of a packed batch independently).  `RNNCell.run` maps an input
  sequence to the output sequence, `RNNCell.hfin d` gives the final hidden
  state of direction `d` for one example, so the stacked hidden state
  `h_n : [num_directions, B, num_units]` of one single-layer cell is
  `(List.range numDirections).map (fun d => batch.map (hfin d))`.
* `pack_padded_sequence` keeps, for each example, exactly its first
  `len` frames; `pad_packed_sequence` pads every example back to the longest
  length with zero vectors and returns the per-example valid lengths.
* Python `assert` statements and the `NameError` that would occur if the
  sub-task tap never fired are modelled by `Except Err`.
* Integer subtractions appearing in Python index arithmetic
  (`num_layers_sub - 1`, `num_layers - 1`) are computed in `ℤ`, matching
  Python semantics also for degenerate configurations.
-/

namespace HRNN

/-- A feature vector (last tensor dimension). -/
abbrev Vec := List Int

/-- A batch tensor `[B, T, F]`, batch-major. -/
abbrev Tensor3 := List (List Vec)

/-- Runtime failures of `forward`: the `assert inputs_seq_len == unpacked_seq_len`
checks (lines 234 and 264 of the source), the corresponding check for the sub
output (line 265), and the `NameError` that would be raised at line 256 if the
sub-task tap never fired. -/
inductive Err
  | assertLen
  | assertLenSub
  | nameErr
  deriving DecidableEq

/-- An opaque recurrent cell (one `nn.LSTM`/`nn.GRU`/`nn.RNN` layer with a
fixed fresh initial hidden state `h_0`), acting on one example of a packed
batch. -/
structure RNNCell where
  run : List Vec → List Vec
  hfin : ℕ → List Vec → Vec

/-- The external collaborators of one encoder instance: the per-layer
recurrent cells (`self.rnns`), the per-layer projections
(`self.projections`), the convolutional front-end (`self.conv`, per example)
and its length-subsampling rule (`self.conv_out_size`). -/
structure Params where
  cells : ℕ → RNNCell
  projs : ℕ → Vec → Vec
  conv : List Vec → List Vec
  convOutSize : ℕ → ℕ

/-- The configuration fields of `HierarchicalRNNEncoder` that `forward`
reads. -/
structure EncCfg where
  bidirectional : Bool
  numUnits : ℕ
  numProj : ℕ
  numLayers : ℕ
  numLayersSub : ℕ
  mergeBidirectional : Bool
  residual : Bool
  denseResidual : Bool
  hasConv : Bool
  deriving DecidableEq

/-- `self.num_directions = 2 if bidirectional else 1` (line 83). -/
def EncCfg.numDirections (c : EncCfg) : ℕ := if c.bidirectional then 2 else 1

/-- Stable insertion (descending by `lens`-value) of index `i` into an
already sorted index list. -/
def insertDesc (lens : List ℕ) (i : ℕ) : List ℕ → List ℕ
  | [] => [i]
  | j :: rest =>
    if lens.getD i 0 < lens.getD j 0 then j :: insertDesc lens i rest
    else i :: j :: rest

/-- `inputs_seq_len.sort(dim=0, descending=True)` (line 197): the returned
`perm_indices`, i.e. the list of original batch indices in descending-length
order. -/
def argsortDesc (lens : List ℕ) : List ℕ :=
  (List.range lens.length).foldr (insertDesc lens) []

/-- Advanced indexing `xs[perm]` (gather): entry `j` of the result is
`xs[perm[j]]`. -/
def applyPerm (p : List ℕ) (xs : List α) (d : α) : List α :=
  p.map (fun i => xs.getD i d)

/-- The inverse of a permutation `p` of `range n`: entry `i` is the position
at which `p` holds `i`. -/
def invPerm (p : List ℕ) : List ℕ :=
  (List.range p.length).map (fun i => p.indexOf i)

/-- `pack_padded_sequence(padded, lens)`: keep, per example, the first
`lens[b]` frames. -/
def packPaddedSequence (padded : Tensor3) (lens : List ℕ) : Tensor3 :=
  List.zipWith (fun r l => r.take l) padded lens

/-- Maximum valid length over the examples of a packed batch. -/
def maxLenT (rows : Tensor3) : ℕ :=
  (rows.map List.length).foldr max 0

/-- Feature width of a batch (width of its first feature vector). -/
def featWidth (rows : Tensor3) : ℕ :=
  ((rows.headD []).headD []).length

/-- `pad_packed_sequence(packed, padding_value=0.0)`: pad every example to the
longest valid length with zero vectors, and return the per-example valid
lengths. -/
def padPackedSequence (rows : Tensor3) : Tensor3 × List ℕ :=
  (rows.map (fun r => r ++ List.replicate (maxLenT rows - r.length) (List.replicate (featWidth rows) 0)),
   rows.map List.length)

/-- Elementwise sum of two padded tensors (`outputs + outputs_lower`). -/
def addT (a b : Tensor3) : Tensor3 :=
  List.zipWith (fun ra rb => List.zipWith (fun va vb => List.zipWith (fun x y => x + y) va vb) ra rb) a b

/-- One recurrent layer applied to a packed batch: the packed output
(`outputs`) and the stacked hidden state `h_n : [num_directions, B, num_units]`. -/
def runCell (c : RNNCell) (numDirections : ℕ) (packed : Tensor3) :
    Tensor3 × List (List Vec) :=
  (packed.map c.run, (List.range numDirections).map (fun d => packed.map (c.hfin d)))

/-- `self.projections[i_layer](outputs)`: the affine projection applied to the
last dimension of a padded tensor. -/
def mapProj (P : Params) (i : ℕ) (t : Tensor3) : Tensor3 :=
  t.map (fun row => row.map (P.projs i))

/-- The residual-connection block (lines 242–248): sum the current output with
every retained prior output, then retain `[outputs]` under residual mode or
append `outputs` under dense-residual mode. -/
def residualBlock (residual denseResidual : Bool) (cur : Tensor3)
    (res : List Tensor3) : Tensor3 × List Tensor3 :=
  if residual || denseResidual then
    let summed := res.foldl addT cur
    if residual then (summed, [summed]) else (summed, res ++ [summed])
  else (cur, res)

/-- The unpack/project/residual/re-pack branch of one layer
(lines 229–253): unpad, assert the lengths, project (except on the last
layer), apply the residual block, re-pack with the unpacked lengths. -/
def unpadBranch (P : Params) (cfg : EncCfg) (lensTracked : List ℕ) (i : ℕ)
    (out1 : Tensor3) (res : List Tensor3) : Except Err (Tensor3 × List Tensor3) :=
  if lensTracked = (padPackedSequence out1).2 then
    .ok (packPaddedSequence
          (residualBlock cfg.residual cfg.denseResidual
            (if 0 < cfg.numProj ∧ (i : ℤ) ≠ (cfg.numLayers : ℤ) - 1
             then mapProj P i (padPackedSequence out1).1
             else (padPackedSequence out1).1) res).1
          (padPackedSequence out1).2,
         (residualBlock cfg.residual cfg.denseResidual
            (if 0 < cfg.numProj ∧ (i : ℤ) ≠ (cfg.numLayers : ℤ) - 1
             then mapProj P i (padPackedSequence out1).1
             else (padPackedSequence out1).1) res).2)
  else .error .assertLen

/-- Loop-carried state of the per-layer loop: the packed `outputs`, the
latest `h_n`, the residual accumulator `res_outputs_list`, and the sub-task
snapshots `outputs_sub` / `h_n_sub` (none until the tap fires). -/
structure LoopState where
  packed : Tensor3
  hN : List (List Vec)
  resList : List Tensor3
  subOut : Option Tensor3
  subHN : Option (List (List Vec))
  deriving DecidableEq

/-- The sub-task tap (lines 255–257): at layer `num_layers_sub - 1`, snapshot
the current packed output and hidden state. -/
def tapSub (cfg : EncCfg) (i : ℕ) (st : LoopState) : LoopState :=
  if (i : ℤ) = (cfg.numLayersSub : ℤ) - 1 then
    { st with subOut := some st.packed, subHN := some st.hN }
  else st

/-- One iteration of the layer loop (lines 223–257). -/
def layerStep (P : Params) (cfg : EncCfg) (lensTracked : List ℕ) (i : ℕ)
    (st : LoopState) : Except Err LoopState :=
  if cfg.residual = true ∨ cfg.denseResidual = true ∨ 0 < cfg.numProj then
    match unpadBranch P cfg lensTracked i
        (runCell (P.cells i) cfg.numDirections st.packed).1 st.resList with
    | .ok pr =>
      .ok (tapSub cfg i { st with packed := pr.1,
                                  hN := (runCell (P.cells i) cfg.numDirections st.packed).2,
                                  resList := pr.2 })
    | .error e => .error e
  else
    .ok (tapSub cfg i { st with packed := (runCell (P.cells i) cfg.numDirections st.packed).1,
                                hN := (runCell (P.cells i) cfg.numDirections st.packed).2 })

/-- The layer loop, over the list of layer indices `range num_layers`. -/
def encLoop (P : Params) (cfg : EncCfg) (lensTracked : List ℕ) :
    List ℕ → LoopState → Except Err LoopState
  | [], st => .ok st
  | i :: rest, st =>
    match layerStep P cfg lensTracked i st with
    | .ok st' => encLoop P cfg lensTracked rest st'
    | .error e => .error e

/-- Bidirectional merge (lines 268–272): elementwise sum of the first
`num_units` features with the remaining features. -/
def mergeBi (numUnits : ℕ) (t : Tensor3) : Tensor3 :=
  t.map (fun row => row.map (fun v =>
    List.zipWith (fun x y => x + y) (v.take numUnits) (v.drop numUnits)))

/-- Final-state extraction (lines 275–280): `h_n[-2:-1, :, :]` when
bidirectional (the forward half of the last layer, kept as a length-1 leading
dimension), else `h_n[-1, :, :].unsqueeze(dim=0)`. -/
def extractFw (numDirections : ℕ) (hN : List (List Vec)) : List (List Vec) :=
  if numDirections = 2 then (hN.drop (hN.length - 2)).take 1
  else [hN.getD (hN.length - 1) []]

/-- The state entering the layer loop: the packed inputs, no hidden state
yet, an empty residual accumulator (the raw inputs are excluded from the
residual connection, line 222), and no sub-task snapshot yet. -/
def initState (packed0 : Tensor3) : LoopState :=
  { packed := packed0, hN := [], resList := [], subOut := none, subHN := none }

/-- The tracked valid lengths after sorting and the optional convolutional
front-end (lines 196–214): the length-sorted input lengths, passed through
`self.conv_out_size` when a front-end is configured. -/
def fwdLensTracked (P : Params) (cfg : EncCfg) (lens : List ℕ) : List ℕ :=
  if cfg.hasConv then (applyPerm (argsortDesc lens) lens 0).map P.convOutSize
  else applyPerm (argsortDesc lens) lens 0

/-- The packed inputs entering the layer loop (lines 199–218): sorted by the
permutation, passed through the front-end when configured, and packed with
the tracked lengths. -/
def fwdPacked0 (P : Params) (cfg : EncCfg) (inputs : Tensor3) (lens : List ℕ) : Tensor3 :=
  let sortedInputs := applyPerm (argsortDesc lens) inputs []
  let convInputs := if cfg.hasConv then sortedInputs.map P.conv else sortedInputs
  packPaddedSequence convInputs (fwdLensTracked P cfg lens)

/-- The five returned values of `forward` (line 286). -/
structure FwdResult where
  outputs : Tensor3
  finalStateFw : List (List Vec)
  outputsSub : Tensor3
  finalStateFwSub : List (List Vec)
  permIndices : List ℕ
  deriving DecidableEq

/-- The guarded bidirectional merge (line 268), applied identically to the
final and the sub output. -/
def mergeIf (cfg : EncCfg) (t : Tensor3) : Tensor3 :=
  if cfg.bidirectional = true ∧ cfg.mergeBidirectional = true then
    mergeBi cfg.numUnits t
  else t

/-- The post-loop stage of `forward` (lines 259–286): unpad the final and
sub outputs, assert their lengths, merge bidirectional halves if requested,
and extract the final forward hidden states. -/
def finishPost (cfg : EncCfg) (lensTracked perm : List ℕ) (stN : LoopState) :
    Except Err FwdResult :=
  match stN.subOut, stN.subHN with
  | some subPacked, some subHNv =>
    if lensTracked = (padPackedSequence stN.packed).2 then
      if lensTracked = (padPackedSequence subPacked).2 then
        .ok { outputs := mergeIf cfg (padPackedSequence stN.packed).1,
              finalStateFw := extractFw cfg.numDirections stN.hN,
              outputsSub := mergeIf cfg (padPackedSequence subPacked).1,
              finalStateFwSub := extractFw cfg.numDirections subHNv,
              permIndices := perm }
      else .error .assertLenSub
    else .error .assertLen
  | _, _ => .error .nameErr

/-- `HierarchicalRNNEncoder.forward` (lines 165–286). -/
def forward (P : Params) (cfg : EncCfg) (inputs : Tensor3) (lens : List ℕ) :
    Except Err FwdResult :=
  match encLoop P cfg (fwdLensTracked P cfg lens) (List.range cfg.numLayers)
      (initState (fwdPacked0 P cfg inputs lens)) with
  | .error e => .error e
  | .ok stN => finishPost cfg (fwdLensTracked P cfg lens) (argsortDesc lens) stN

/-!
Constructor validation (`HierarchicalRNNEncoder.__init__`, lines 51–163).
The float-valued parameters (`dropout`, `parameter_init`) and the purely
structural ones (`use_cuda`, `batch_first`, `merge_bidirectional`,
`poolings`, `activation`, `batch_norm`) take no part in any validation
control flow and are omitted from the argument record.
-/

/-- The constructor arguments that participate in validation. -/
structure InitArgs where
  rnnType : String
  numUnits : Int
  numProj : Option Int
  numLayers : Int
  numLayersSub : Int
  numStack : Int
  splice : Int
  convChannels : List Int
  convKernelSizes : List Int
  convStrides : List Int
  residual : Bool
  denseResidual : Bool

/-- The distinct construction-time failures: the `ValueError` for an invalid
`num_layers_sub` (lines 77–79), the `assert not (residual and dense_residual)`
(line 91), the `assert num_stack == 1` / `assert splice == 1` of the
convolutional branch (lines 97–98), and the `ValueError` for an unsupported
`rnn_type` (lines 150–151). -/
inductive InitErr
  | badNumLayersSub
  | residualConflict
  | numStackAssert
  | spliceAssert
  | badRnnType
  deriving DecidableEq

/-- The convolutional front-end is configured when the three convolution
parameter lists are nonempty and of equal length (line 96). -/
def convConfigured (a : InitArgs) : Bool :=
  decide (0 < a.convChannels.length ∧
    a.convChannels.length = a.convKernelSizes.length ∧
    a.convKernelSizes.length = a.convStrides.length)

/-- The per-layer construction loop (lines 118–163): each iteration raises
`ValueError` unless `rnn_type` is `lstm`, `gru` or `rnn`; module construction
itself is external. -/
def rnnTypeLoop (rnnType : String) : ℕ → Except InitErr Unit
  | 0 => .ok ()
  | n + 1 =>
    if rnnType = "lstm" ∨ rnnType = "gru" ∨ rnnType = "rnn" then
      rnnTypeLoop rnnType n
    else .error .badRnnType

/-- The validation performed by `HierarchicalRNNEncoder.__init__`, in source
order. -/
def initCheck (a : InitArgs) : Except InitErr Unit :=
  if a.numLayersSub < 1 ∨ a.numLayers < a.numLayersSub then .error .badNumLayersSub
  else if a.residual = true ∧ a.denseResidual = true then .error .residualConflict
  else if convConfigured a then
    if a.numStack ≠ 1 then .error .numStackAssert
    else if a.splice ≠ 1 then .error .spliceAssert
    else rnnTypeLoop a.rnnType a.numLayers.toNat
  else rnnTypeLoop a.rnnType a.numLayers.toNat

end HRNN

namespace HRNN

/-! ### Permutation lemmas: the length-descending argsort is a permutation of
the batch indices, and indexing by its inverse undoes indexing by it. -/

theorem insertDesc_perm (lens : List ℕ) (i : ℕ) :
    ∀ l : List ℕ, List.Perm (insertDesc lens i l) (i :: l) := by
  intro l
  induction l with
  | nil => simp [insertDesc]
  | cons j rest ih =>
    simp only [insertDesc]
    split
    · exact (ih.cons j).trans (List.Perm.swap i j rest)
    · exact List.Perm.refl _

theorem foldr_insertDesc_perm (lens : List ℕ) :
    ∀ L : List ℕ, List.Perm (List.foldr (insertDesc lens) [] L) L := by
  intro L
  induction L with
  | nil => exact List.Perm.refl _
  | cons i L' ih =>
    exact (insertDesc_perm lens i _).trans (ih.cons i)

theorem argsortDesc_perm (lens : List ℕ) :
    List.Perm (argsortDesc lens) (List.range lens.length) :=
  foldr_insertDesc_perm lens _

theorem argsortDesc_length (lens : List ℕ) :
    (argsortDesc lens).length = lens.length := by
  simpa using (argsortDesc_perm lens).length_eq

theorem argsortDesc_mem (lens : List ℕ) (i : ℕ) :
    i ∈ argsortDesc lens ↔ i < lens.length := by
  rw [(argsortDesc_perm lens).mem_iff, List.mem_range]

theorem applyPerm_length (p : List ℕ) (xs : List α) (d : α) :
    (applyPerm p xs d).length = p.length := by simp [applyPerm]

theorem applyPerm_invPerm_applyPerm {p : List ℕ} {n : ℕ}
    (hp : List.Perm p (List.range n)) (xs : List α) (hx : xs.length = n) (d : α) :
    applyPerm (invPerm p) (applyPerm p xs d) d = xs := by
  have hplen : p.length = n := by simpa using hp.length_eq
  apply List.ext_getElem
  · simp [applyPerm, invPerm, hplen, hx]
  · intro i h1 h2
    have hin : i < n := by simpa [hx] using h2
    have himem : i ∈ p := hp.mem_iff.mpr (List.mem_range.mpr hin)
    have hidx : p.indexOf i < p.length := List.indexOf_lt_length.mpr himem
    simp only [applyPerm, invPerm, List.getElem_map, List.getElem_range]
    rw [List.getD_eq_getElem _ _ (by simpa [applyPerm, hplen] using hidx)]
    simp only [applyPerm, List.getElem_map]
    rw [List.getElem_indexOf hidx]
    exact List.getD_eq_getElem _ _ (by omega)

/-! ### Reading components off a successful `forward` run. -/

theorem finishPost_permIndices {cfg : EncCfg} {lt perm : List ℕ} {stN : LoopState}
    {r : FwdResult} (h : finishPost cfg lt perm stN = .ok r) : r.permIndices = perm := by
  unfold finishPost at h
  repeat' split at h
  all_goals first
    | (injection h with h; subst h; rfl)
    | exact Except.noConfusion h

theorem forward_permIndices {P : Params} {cfg : EncCfg} {inputs : Tensor3}
    {lens : List ℕ} {r : FwdResult} (h : forward P cfg inputs lens = .ok r) :
    r.permIndices = argsortDesc lens := by
  unfold forward at h
  split at h
  · exact Except.noConfusion h
  · exact finishPost_permIndices h

end HRNN

namespace HRNN

/-! ### Constructor validation lemmas. -/

theorem rnnTypeLoop_error (t : String) :
    ∀ n e, rnnTypeLoop t n = .error e → e = .badRnnType := by
  intro n
  induction n with
  | zero => intro e h; exact Except.noConfusion h
  | succ n ih =>
    intro e h
    unfold rnnTypeLoop at h
    split at h
    · exact ih e h
    · injection h with h; exact h.symm

/-- C4: enabling residual and dense-residual together always fails at
construction (whatever error fires first), and with at most one of the two
enabled the residual-conflict assertion never fires. -/
theorem init_residual_conflict (a : InitArgs) :
    (a.residual = true ∧ a.denseResidual = true → ∃ e, initCheck a = .error e) ∧
    (¬(a.residual = true ∧ a.denseResidual = true) →
      initCheck a ≠ .error .residualConflict) := by
  unfold initCheck
  constructor
  · intro hrd
    split_ifs <;> exact ⟨_, rfl⟩
  · intro hrd
    split_ifs <;>
      first
        | (intro h; injection h with h; exact InitErr.noConfusion h)
        | (intro h; exact absurd (rnnTypeLoop_error _ _ _ h)
            (by intro hh; exact InitErr.noConfusion hh))

/-- C5: a sub-layer index below 1 or above the layer count raises the
dedicated `ValueError` eagerly at construction, for every choice of the other
arguments; any index in `[1, num_layers]` passes this check. -/
theorem init_numLayersSub_range (a : InitArgs) :
    ((a.numLayersSub < 1 ∨ a.numLayers < a.numLayersSub) →
      initCheck a = .error .badNumLayersSub) ∧
    (1 ≤ a.numLayersSub → a.numLayersSub ≤ a.numLayers →
      initCheck a ≠ .error .badNumLayersSub) := by
  unfold initCheck
  constructor
  · intro h
    split_ifs
    rfl
  · intro h1 h2
    split_ifs with g1 <;>
      first
        | exact absurd g1 (by omega)
        | (intro h; injection h with h; exact InitErr.noConfusion h)
        | (intro h; exact absurd (rnnTypeLoop_error _ _ _ h)
            (by intro hh; exact InitErr.noConfusion hh))

end HRNN

namespace HRNN

/-! ### The residual accumulator and the projection rule of one layer. -/

/-- C3: in the unpad branch, residual accumulation sums the current
(possibly projected) output with all retained prior outputs; afterwards the
retained set becomes exactly `[summed]` under residual mode and is appended
with `summed` under dense-residual mode; and the accumulator entering the
loop is empty, so the raw inputs are never a residual summand. -/
theorem residual_accumulation_rule :
    (∀ (cur : Tensor3) (res : List Tensor3),
        residualBlock true false cur res =
          (res.foldl addT cur, [res.foldl addT cur])) ∧
    (∀ (cur : Tensor3) (res : List Tensor3),
        residualBlock false true cur res =
          (res.foldl addT cur, res ++ [res.foldl addT cur])) ∧
    (∀ t : Tensor3, (initState t).resList = []) := by
  refine ⟨fun cur res => ?_, fun cur res => ?_, fun t => rfl⟩ <;> simp [residualBlock]

/-- C6: with a projection width configured (`num_proj > 0`) and the length
assertion passing, the unpad branch applies the projection to the unpadded
output of every layer except the last (`i = num_layers - 1`), on which it is
skipped. -/
theorem projection_skips_last (P : Params) (cfg : EncCfg) (lensT : List ℕ)
    (i : ℕ) (out1 : Tensor3) (res : List Tensor3) (hp : 0 < cfg.numProj)
    (ha : lensT = (padPackedSequence out1).2) :
    ((i : ℤ) ≠ (cfg.numLayers : ℤ) - 1 →
      unpadBranch P cfg lensT i out1 res =
        .ok (packPaddedSequence
              (residualBlock cfg.residual cfg.denseResidual
                (mapProj P i (padPackedSequence out1).1) res).1
              (padPackedSequence out1).2,
             (residualBlock cfg.residual cfg.denseResidual
                (mapProj P i (padPackedSequence out1).1) res).2)) ∧
    ((i : ℤ) = (cfg.numLayers : ℤ) - 1 →
      unpadBranch P cfg lensT i out1 res =
        .ok (packPaddedSequence
              (residualBlock cfg.residual cfg.denseResidual
                (padPackedSequence out1).1 res).1
              (padPackedSequence out1).2,
             (residualBlock cfg.residual cfg.denseResidual
                (padPackedSequence out1).1 res).2)) := by
  constructor
  · intro hne
    unfold unpadBranch
    rw [if_pos ha, if_pos ⟨hp, hne⟩]
  · intro heq
    unfold unpadBranch
    rw [if_pos ha, if_neg (by simp [heq])]

end HRNN

namespace HRNN

/-! ### Shape bookkeeping. -/

def maxNat (l : List ℕ) : ℕ := l.foldr max 0

def Rows (t : Tensor3) (M : ℕ) : Prop := ∀ r ∈ t, r.length = M

theorem le_maxNat : ∀ {l : List ℕ} {x : ℕ}, x ∈ l → x ≤ maxNat l := by
  intro l
  induction l with
  | nil => intro x hx; simp at hx
  | cons a l ih =>
    intro x hx
    rcases List.mem_cons.mp hx with h | h
    · subst h; exact le_max_left _ _
    · exact le_trans (ih h) (le_max_right _ _)

theorem maxLenT_eq {rows : Tensor3} {lens : List ℕ} (h : rows.map List.length = lens) :
    maxLenT rows = maxNat lens := by
  unfold maxLenT maxNat; rw [h]

theorem pad_snd (rows : Tensor3) : (padPackedSequence rows).2 = rows.map List.length := rfl

theorem pad_fst_length (rows : Tensor3) :
    (padPackedSequence rows).1.length = rows.length := by
  simp [padPackedSequence]

theorem pad_fst_rows (rows : Tensor3) : Rows (padPackedSequence rows).1 (maxLenT rows) := by
  intro r hr
  simp only [padPackedSequence, List.mem_map] at hr
  obtain ⟨r0, hr0, rfl⟩ := hr
  have hle : r0.length ≤ maxLenT rows := le_maxNat (List.mem_map_of_mem _ hr0)
  simp only [List.length_append, List.length_replicate]
  omega

theorem pack_lens : ∀ {rows : Tensor3} {lens : List ℕ},
    List.Forall₂ (fun (r : List Vec) l => l ≤ r.length) rows lens →
    (packPaddedSequence rows lens).map List.length = lens := by
  intro rows lens h
  induction h with
  | nil => rfl
  | @cons r l rows lens h1 _ ih =>
    simp only [packPaddedSequence, List.zipWith_cons_cons, List.map_cons] at *
    rw [ih, List.length_take, Nat.min_eq_left h1]

theorem addT_length (a b : Tensor3) : (addT a b).length = min a.length b.length := by
  simp [addT]

theorem addT_rows {M : ℕ} : ∀ {a b : Tensor3}, Rows a M → Rows b M → Rows (addT a b) M := by
  intro a
  induction a with
  | nil => intro b _ _ r hr; simp [addT] at hr
  | cons ra a ih =>
    intro b ha hb r hr
    cases b with
    | nil => simp [addT] at hr
    | cons rb b =>
      simp only [addT, List.zipWith_cons_cons] at hr
      rcases List.mem_cons.mp hr with h | h
      · subst h
        have h1 : ra.length = M := ha ra (by simp)
        have h2 : rb.length = M := hb rb (by simp)
        simp [List.length_zipWith, h1, h2]
      · exact ih (fun u hu => ha u (by simp [hu])) (fun u hu => hb u (by simp [hu])) r h

theorem foldl_addT_shape {M n : ℕ} :
    ∀ (res : List Tensor3) (cur : Tensor3), Rows cur M → cur.length = n →
      (∀ t ∈ res, t.length = n ∧ Rows t M) →
      Rows (res.foldl addT cur) M ∧ (res.foldl addT cur).length = n := by
  intro res
  induction res with
  | nil => intro cur h1 h2 _; exact ⟨h1, h2⟩
  | cons t res ih =>
    intro cur h1 h2 h3
    have ht := h3 t (by simp)
    refine ih (addT cur t) (addT_rows h1 ht.2) ?_ (fun u hu => h3 u (by simp [hu]))
    rw [addT_length, h2, ht.1]
    omega

theorem residualBlock_shape {M n : ℕ} (rb db : Bool) (cur : Tensor3) (res : List Tensor3)
    (h1 : Rows cur M) (h2 : cur.length = n) (h3 : ∀ t ∈ res, t.length = n ∧ Rows t M) :
    Rows (residualBlock rb db cur res).1 M ∧ (residualBlock rb db cur res).1.length = n ∧
      (∀ t ∈ (residualBlock rb db cur res).2, t.length = n ∧ Rows t M) := by
  unfold residualBlock
  split
  · have hs := foldl_addT_shape res cur h1 h2 h3
    split
    · refine ⟨hs.1, hs.2, ?_⟩
      intro t ht
      simp only [List.mem_singleton] at ht
      subst ht
      exact ⟨hs.2, hs.1⟩
    · refine ⟨hs.1, hs.2, ?_⟩
      intro t ht
      rcases List.mem_append.mp ht with h | h
      · exact h3 t h
      · simp only [List.mem_singleton] at h
        subst h
        exact ⟨hs.2, hs.1⟩
  · exact ⟨h1, h2, h3⟩

theorem mapProj_length (P : Params) (i : ℕ) (t : Tensor3) :
    (mapProj P i t).length = t.length := by simp [mapProj]

theorem mapProj_rows {M : ℕ} (P : Params) (i : ℕ) {t : Tensor3} (h : Rows t M) :
    Rows (mapProj P i t) M := by
  intro r hr
  simp only [mapProj, List.mem_map] at hr
  obtain ⟨r0, hr0, rfl⟩ := hr
  simp [h r0 hr0]

theorem forall₂_le_of_rows {M : ℕ} :
    ∀ {t : Tensor3} {lens : List ℕ}, t.length = lens.length → Rows t M →
      (∀ l ∈ lens, l ≤ M) →
      List.Forall₂ (fun (r : List Vec) l => l ≤ r.length) t lens := by
  intro t
  induction t with
  | nil =>
    intro lens h _ _
    cases lens with
    | nil => exact List.Forall₂.nil
    | cons _ _ => simp at h
  | cons r t ih =>
    intro lens h hr hl
    cases lens with
    | nil => simp at h
    | cons l lens =>
      refine List.Forall₂.cons ?_
        (ih (by simpa using h) (fun u hu => hr u (by simp [hu])) (fun u hu => hl u (by simp [hu])))
      rw [hr r (by simp)]
      exact hl l (by simp)

theorem runCell_fst_lens (c : RNNCell) (D : ℕ) (packed : Tensor3)
    (Hrun : ∀ xs, (c.run xs).length = xs.length) :
    ((runCell c D packed).1).map List.length = packed.map List.length := by
  simp only [runCell, List.map_map]
  exact List.map_congr_left (fun xs _ => Hrun xs)

end HRNN

namespace HRNN

/-! ### The length invariant of the layer loop. -/

/-- All valid lengths tracked through the loop: the packed output rows carry
exactly the tracked lengths, every retained residual tensor is a full padded
batch, and any sub-task snapshot carries the tracked lengths too. -/
def LenInv (lensT : List ℕ) (st : LoopState) : Prop :=
  st.packed.map List.length = lensT ∧
  (∀ t ∈ st.resList, t.length = lensT.length ∧ Rows t (maxNat lensT)) ∧
  (∀ s, st.subOut = some s → s.map List.length = lensT)

theorem tapSub_lenInv {lensT : List ℕ} {st : LoopState} (cfg : EncCfg) (i : ℕ)
    (h : LenInv lensT st) : LenInv lensT (tapSub cfg i st) := by
  unfold tapSub
  split
  · exact ⟨h.1, h.2.1, by intro s hs; injection hs with hs; subst hs; exact h.1⟩
  · exact h

theorem layerStep_len {P : Params} {cfg : EncCfg} {lensT : List ℕ} {i : ℕ}
    {st : LoopState}
    (Hrun : ∀ k xs, ((P.cells k).run xs).length = xs.length)
    (h : LenInv lensT st) :
    ∃ st', layerStep P cfg lensT i st = .ok st' ∧ LenInv lensT st' := by
  have hout : ((runCell (P.cells i) cfg.numDirections st.packed).1).map List.length = lensT :=
    (runCell_fst_lens _ _ _ (Hrun i)).trans h.1
  unfold layerStep
  split
  · -- the unpack/project/residual branch
    set out1 := (runCell (P.cells i) cfg.numDirections st.packed).1 with hdef
    have hpad2 : (padPackedSequence out1).2 = lensT := (pad_snd out1).trans hout
    have hM : maxLenT out1 = maxNat lensT := maxLenT_eq hout
    have hplen : (padPackedSequence out1).1.length = lensT.length := by
      rw [pad_fst_length]
      calc out1.length = (out1.map List.length).length := by simp
      _ = lensT.length := by rw [hout]
    have hprows : Rows (padPackedSequence out1).1 (maxNat lensT) := by
      rw [← hM]; exact pad_fst_rows out1
    have hproj : ∀ pt : Tensor3,
        pt = (if 0 < cfg.numProj ∧ (i : ℤ) ≠ (cfg.numLayers : ℤ) - 1
              then mapProj P i (padPackedSequence out1).1
              else (padPackedSequence out1).1) →
        Rows pt (maxNat lensT) ∧ pt.length = lensT.length := by
      intro pt hpt
      subst hpt
      split
      · exact ⟨mapProj_rows P i hprows, (mapProj_length P i _).trans hplen⟩
      · exact ⟨hprows, hplen⟩
    have hbr : ∃ pr, unpadBranch P cfg lensT i out1 st.resList = .ok pr ∧
        pr.1.map List.length = lensT ∧
        (∀ t ∈ pr.2, t.length = lensT.length ∧ Rows t (maxNat lensT)) := by
      unfold unpadBranch
      rw [if_pos hpad2.symm]
      obtain ⟨hr1, hr2⟩ := hproj _ rfl
      have hrb := residualBlock_shape cfg.residual cfg.denseResidual _ st.resList hr1 hr2 h.2.1
      refine ⟨_, rfl, ?_, hrb.2.2⟩
      rw [hpad2]
      exact pack_lens (forall₂_le_of_rows hrb.2.1 hrb.1 (fun l hl => le_maxNat hl))
    obtain ⟨pr, hpr, hpr1, hpr2⟩ := hbr
    rw [hpr]
    exact ⟨_, rfl, tapSub_lenInv cfg i ⟨hpr1, hpr2, fun s hs => h.2.2 s hs⟩⟩
  · -- no unpacking: the packed output is passed on directly
    exact ⟨_, rfl, tapSub_lenInv cfg i ⟨hout, h.2.1, fun s hs => h.2.2 s hs⟩⟩

theorem encLoop_len {P : Params} {cfg : EncCfg} {lensT : List ℕ}
    (Hrun : ∀ k xs, ((P.cells k).run xs).length = xs.length) :
    ∀ (L : List ℕ) (st : LoopState), LenInv lensT st →
      ∃ st', encLoop P cfg lensT L st = .ok st' ∧ LenInv lensT st' := by
  intro L
  induction L with
  | nil => intro st h; exact ⟨st, rfl, h⟩
  | cons i rest ih =>
    intro st h
    obtain ⟨st1, hst1, hinv1⟩ := layerStep_len Hrun h
    obtain ⟨st', hst', hinv'⟩ := ih st1 hinv1
    refine ⟨st', ?_, hinv'⟩
    rw [encLoop, hst1]
    exact hst'

end HRNN

namespace HRNN

/-! ### The sub-task tap fires exactly at layer `num_layers_sub - 1`. -/

theorem tapSub_fires {cfg : EncCfg} {i : ℕ} (st : LoopState)
    (hi : (i : ℤ) = (cfg.numLayersSub : ℤ) - 1) :
    (tapSub cfg i st).subOut = some (tapSub cfg i st).packed ∧
    (tapSub cfg i st).subHN = some (tapSub cfg i st).hN := by
  unfold tapSub
  rw [if_pos hi]
  exact ⟨rfl, rfl⟩

theorem tapSub_isSome {cfg : EncCfg} {i : ℕ} {st : LoopState}
    (h : st.subOut.isSome ∧ st.subHN.isSome) :
    (tapSub cfg i st).subOut.isSome ∧ (tapSub cfg i st).subHN.isSome := by
  unfold tapSub
  split
  · exact ⟨rfl, rfl⟩
  · exact h

theorem layerStep_tap {P : Params} {cfg : EncCfg} {lensT : List ℕ} {i : ℕ}
    {st st' : LoopState} (hi : (i : ℤ) = (cfg.numLayersSub : ℤ) - 1)
    (h : layerStep P cfg lensT i st = .ok st') :
    st'.subOut = some st'.packed ∧ st'.subHN = some st'.hN := by
  unfold layerStep at h
  split at h
  · split at h
    · injection h with h; subst h; exact tapSub_fires _ hi
    · exact Except.noConfusion h
  · injection h with h; subst h; exact tapSub_fires _ hi

theorem layerStep_isSome {P : Params} {cfg : EncCfg} {lensT : List ℕ} {i : ℕ}
    {st st' : LoopState} (h : layerStep P cfg lensT i st = .ok st')
    (hs : st.subOut.isSome ∧ st.subHN.isSome) :
    st'.subOut.isSome ∧ st'.subHN.isSome := by
  unfold layerStep at h
  split at h
  · split at h
    · injection h with h; subst h; exact tapSub_isSome hs
    · exact Except.noConfusion h
  · injection h with h; subst h; exact tapSub_isSome hs

theorem encLoop_isSome {P : Params} {cfg : EncCfg} {lensT : List ℕ} :
    ∀ (L : List ℕ) (st st' : LoopState), encLoop P cfg lensT L st = .ok st' →
      st.subOut.isSome ∧ st.subHN.isSome → st'.subOut.isSome ∧ st'.subHN.isSome := by
  intro L
  induction L with
  | nil => intro st st' h hs; injection h with h; subst h; exact hs
  | cons i rest ih =>
    intro st st' h hs
    cases hls : layerStep P cfg lensT i st with
    | error e => rw [encLoop, hls] at h; exact Except.noConfusion h
    | ok st1 =>
      rw [encLoop, hls] at h
      exact ih st1 st' h (layerStep_isSome hls hs)

theorem encLoop_taps {P : Params} {cfg : EncCfg} {lensT : List ℕ} {j : ℕ}
    (hj : (j : ℤ) = (cfg.numLayersSub : ℤ) - 1) :
    ∀ (L : List ℕ) (st st' : LoopState), j ∈ L →
      encLoop P cfg lensT L st = .ok st' →
      st'.subOut.isSome ∧ st'.subHN.isSome := by
  intro L
  induction L with
  | nil => intro st st' hmem; intro _; simp at hmem
  | cons i rest ih =>
    intro st st' hmem h
    cases hls : layerStep P cfg lensT i st with
    | error e => rw [encLoop, hls] at h; exact Except.noConfusion h
    | ok st1 =>
      rw [encLoop, hls] at h
      rcases List.mem_cons.mp hmem with rfl | hmem'
      · obtain ⟨h1, h2⟩ := layerStep_tap hj hls
        exact encLoop_isSome rest st1 st' h ⟨by rw [h1]; rfl, by rw [h2]; rfl⟩
      · exact ih st1 st' hmem' h

end HRNN

namespace HRNN

/-! ### Shape of the packed inputs entering the loop. -/

theorem forall₂_map_pair {α β : Type _} {R : α → β → Prop} (f : ℕ → α) (g : ℕ → β) :
    ∀ p : List ℕ, (∀ i ∈ p, R (f i) (g i)) → List.Forall₂ R (p.map f) (p.map g) := by
  intro p
  induction p with
  | nil => intro _; simp
  | cons i p ih =>
    intro h
    simp only [List.map_cons]
    exact List.Forall₂.cons (h i (by simp)) (ih fun j hj => h j (List.mem_cons_of_mem _ hj))

theorem forall₂_getD {α β : Type _} {R : α → β → Prop} :
    ∀ {a : List α} {b : List β}, List.Forall₂ R a b →
      ∀ (i : ℕ) (d : α) (d' : β), i < a.length → R (a.getD i d) (b.getD i d') := by
  intro a b h
  induction h with
  | nil => intro i _ _ hi; simp at hi
  | cons h1 _ ih =>
    intro i d d' hi
    cases i with
    | zero => simpa using h1
    | succ i => exact ih i d d' (by simpa using hi)

theorem fwdLensTracked_length (P : Params) (cfg : EncCfg) (lens : List ℕ) :
    (fwdLensTracked P cfg lens).length = lens.length := by
  unfold fwdLensTracked
  split <;> simp [applyPerm_length, argsortDesc_length]

theorem fwdPacked0_lens (P : Params) (cfg : EncCfg) {inputs : Tensor3} {lens : List ℕ}
    (H1 : List.Forall₂ (fun l (r : List Vec) => l ≤ r.length) lens inputs)
    (Hconv : cfg.hasConv = true →
      ∀ xs l, l ≤ List.length xs → P.convOutSize l ≤ (P.conv xs).length) :
    (fwdPacked0 P cfg inputs lens).map List.length = fwdLensTracked P cfg lens := by
  have hgd : ∀ i ∈ argsortDesc lens,
      lens.getD i 0 ≤ (inputs.getD i []).length := by
    intro i hi
    exact forall₂_getD H1 i 0 [] ((argsortDesc_mem lens i).mp hi)
  unfold fwdPacked0 fwdLensTracked
  cases hc : cfg.hasConv with
  | false =>
    simp only [hc, Bool.false_eq_true, if_false]
    refine pack_lens (forall₂_map_pair _ _ (argsortDesc lens) ?_)
    exact fun i hi => hgd i hi
  | true =>
    simp only [hc, if_true, applyPerm, List.map_map]
    refine pack_lens (forall₂_map_pair _ _ (argsortDesc lens) ?_)
    intro i hi
    exact Hconv hc _ _ (hgd i hi)

/-! ### Row lengths of the padded and merged outputs. -/

theorem pad_fst_map_length {rows : Tensor3} {lensT : List ℕ}
    (h : rows.map List.length = lensT) :
    (padPackedSequence rows).1.map List.length =
      List.replicate lensT.length (maxNat lensT) := by
  apply List.eq_replicate_iff.mpr
  constructor
  · rw [List.length_map, pad_fst_length]
    calc rows.length = (rows.map List.length).length := by simp
    _ = lensT.length := by rw [h]
  · intro b hb
    obtain ⟨r, hr, rfl⟩ := List.mem_map.mp hb
    rw [pad_fst_rows rows r hr, maxLenT_eq h]

theorem mergeIf_map_length (cfg : EncCfg) (t : Tensor3) :
    (mergeIf cfg t).map List.length = t.map List.length := by
  unfold mergeIf
  split
  · simp [mergeBi, List.map_map]
  · rfl

/-! ### `forward` succeeds on well-formed inputs, with padded output shapes. -/

theorem forward_eq_finishPost {P : Params} {cfg : EncCfg} {inputs : Tensor3}
    {lens : List ℕ} {stN : LoopState}
    (h : encLoop P cfg (fwdLensTracked P cfg lens) (List.range cfg.numLayers)
        (initState (fwdPacked0 P cfg inputs lens)) = .ok stN) :
    forward P cfg inputs lens =
      finishPost cfg (fwdLensTracked P cfg lens) (argsortDesc lens) stN := by
  unfold forward
  rw [h]

theorem finishPost_some {cfg : EncCfg} {lt perm : List ℕ} {stN : LoopState}
    {s : Tensor3} {hn : List (List Vec)}
    (h1 : stN.subOut = some s) (h2 : stN.subHN = some hn) :
    finishPost cfg lt perm stN =
      if lt = (padPackedSequence stN.packed).2 then
        if lt = (padPackedSequence s).2 then
          .ok { outputs := mergeIf cfg (padPackedSequence stN.packed).1,
                finalStateFw := extractFw cfg.numDirections stN.hN,
                outputsSub := mergeIf cfg (padPackedSequence s).1,
                finalStateFwSub := extractFw cfg.numDirections hn,
                permIndices := perm }
        else .error .assertLenSub
      else .error .assertLen := by
  unfold finishPost
  rw [h1, h2]

theorem forward_ok_shape {P : Params} {cfg : EncCfg} {inputs : Tensor3} {lens : List ℕ}
    (hsub1 : 1 ≤ cfg.numLayersSub) (hsub2 : cfg.numLayersSub ≤ cfg.numLayers)
    (H1 : List.Forall₂ (fun l (r : List Vec) => l ≤ r.length) lens inputs)
    (Hconv : cfg.hasConv = true →
      ∀ xs l, l ≤ List.length xs → P.convOutSize l ≤ (P.conv xs).length)
    (Hrun : ∀ k xs, ((P.cells k).run xs).length = xs.length) :
    ∃ r, forward P cfg inputs lens = .ok r ∧
      r.permIndices = argsortDesc lens ∧
      r.outputs.map List.length =
        List.replicate lens.length (maxNat (fwdLensTracked P cfg lens)) ∧
      r.outputsSub.map List.length =
        List.replicate lens.length (maxNat (fwdLensTracked P cfg lens)) := by
  have hinv0 : LenInv (fwdLensTracked P cfg lens) (initState (fwdPacked0 P cfg inputs lens)) := by
    refine ⟨fwdPacked0_lens P cfg H1 Hconv, ?_, ?_⟩
    · intro t ht; simp [initState] at ht
    · intro s hs; simp [initState] at hs
  obtain ⟨stN, hloop, hinv⟩ := encLoop_len Hrun (List.range cfg.numLayers) _ hinv0
  have hj : ((cfg.numLayersSub - 1 : ℕ) : ℤ) = (cfg.numLayersSub : ℤ) - 1 := by omega
  have hmem : cfg.numLayersSub - 1 ∈ List.range cfg.numLayers :=
    List.mem_range.mpr (by omega)
  obtain ⟨hso, hsh⟩ := encLoop_taps hj _ _ _ hmem hloop
  obtain ⟨s, hs⟩ := Option.isSome_iff_exists.mp hso
  obtain ⟨hn, hhn⟩ := Option.isSome_iff_exists.mp hsh
  have hslen : s.map List.length = fwdLensTracked P cfg lens := hinv.2.2 s hs
  have hmain : stN.packed.map List.length = fwdLensTracked P cfg lens := hinv.1
  have hBeq : (fwdLensTracked P cfg lens).length = lens.length := fwdLensTracked_length P cfg lens
  refine ⟨{ outputs := mergeIf cfg (padPackedSequence stN.packed).1,
            finalStateFw := extractFw cfg.numDirections stN.hN,
            outputsSub := mergeIf cfg (padPackedSequence s).1,
            finalStateFwSub := extractFw cfg.numDirections hn,
            permIndices := argsortDesc lens }, ?_, rfl, ?_, ?_⟩
  · rw [forward_eq_finishPost hloop, finishPost_some hs hhn]
    simp only [pad_snd, hslen, hmain, if_pos rfl, eq_self_iff_true, if_true]
  · simp only [mergeIf_map_length, pad_fst_map_length hmain, hBeq]
  · simp only [mergeIf_map_length, pad_fst_map_length hslen, hBeq]

end HRNN

namespace HRNN

/-! ### Concrete instances used by witnesses and counterexamples. -/

/-- An identity recurrent cell: output sequence equals input sequence, final
hidden state `[0]`. -/
def cellId : RNNCell := { run := fun xs => xs, hfin := fun _ _ => [0] }

/-- Concrete collaborators: identity cells, projections, front-end. -/
def paramsId : Params :=
  { cells := fun _ => cellId, projs := fun _ v => v, conv := fun xs => xs,
    convOutSize := fun l => l }

/-- A minimal concrete configuration: unidirectional, one layer, sub tap at
layer one, no projection, no residual modes, no front-end. -/
def encCfgA : EncCfg :=
  { bidirectional := false, numUnits := 1, numProj := 0, numLayers := 1, numLayersSub := 1,
    mergeBidirectional := false, residual := false, denseResidual := false, hasConv := false }

/-- A concrete batch of three examples padded to five frames. -/
def inputsA : Tensor3 :=
  [[[10],[10],[10],[10],[10]], [[20],[20],[20],[20],[20]], [[30],[30],[30],[30],[30]]]

/-- The result of `forward paramsId encCfgA inputsA [3,5,4]`. -/
def resultA : FwdResult :=
  { outputs := [[[20],[20],[20],[20],[20]], [[30],[30],[30],[30],[0]], [[10],[10],[10],[0],[0]]],
    finalStateFw := [[[0],[0],[0]]],
    outputsSub := [[[20],[20],[20],[20],[20]], [[30],[30],[30],[30],[0]], [[10],[10],[10],[0],[0]]],
    finalStateFwSub := [[[0],[0],[0]]],
    permIndices := [1,2,0] }

/-- C1 (counterexample): with lengths `[3, 5, 4]` the returned permutation is
`[1, 2, 0]`; indexing the length-descending-sorted outputs by this permutation
does not recover the original batch order (it yields the outputs of original
examples `2, 0, 1` instead of `0, 1, 2`). -/
theorem perm_roundtrip_cex :
    forward paramsId encCfgA inputsA [3,5,4] = .ok resultA ∧
    applyPerm resultA.permIndices resultA.outputs [] =
      [[[30],[30],[30],[30],[0]], [[10],[10],[10],[0],[0]], [[20],[20],[20],[20],[20]]] ∧
    applyPerm resultA.permIndices resultA.outputs [] ≠
      [[[10],[10],[10],[0],[0]], [[20],[20],[20],[20],[20]], [[30],[30],[30],[30],[0]]] := by
  refine ⟨rfl, by decide, by decide⟩

/-- C1 (amended): the permutation returned by `forward` maps sorted positions
to original batch indices, so it is its *inverse* that, applied to the
length-descending-sorted outputs, recovers the caller's original ordering. -/
theorem perm_roundtrip_inverse {P : Params} {cfg : EncCfg} {inputs : Tensor3}
    {lens : List ℕ} {r : FwdResult} (h : forward P cfg inputs lens = .ok r)
    (xs : Tensor3) (hx : xs.length = lens.length) :
    r.permIndices = argsortDesc lens ∧
    applyPerm (invPerm r.permIndices) (applyPerm r.permIndices xs []) [] = xs := by
  have hp := forward_permIndices h
  refine ⟨hp, ?_⟩
  rw [hp]
  exact applyPerm_invPerm_applyPerm (argsortDesc_perm lens) xs hx []

theorem perm_roundtrip_inverse_witness :
    resultA.permIndices = argsortDesc [3,5,4] ∧
    applyPerm (invPerm resultA.permIndices)
      (applyPerm resultA.permIndices inputsA []) [] = inputsA :=
  @perm_roundtrip_inverse paramsId encCfgA inputsA [3,5,4] resultA rfl inputsA (by decide)

/-- C2: on well-formed inputs every per-layer and final unpadding returns
exactly the tracked lengths, so `forward` completes without tripping a length
assertion; and whenever the unpadded lengths differ from the tracked lengths,
the layer aborts with the assertion error. -/
theorem forward_length_invariant {P : Params} {cfg : EncCfg} {inputs : Tensor3}
    {lens : List ℕ}
    (hsub1 : 1 ≤ cfg.numLayersSub) (hsub2 : cfg.numLayersSub ≤ cfg.numLayers)
    (H1 : List.Forall₂ (fun l (r : List Vec) => l ≤ r.length) lens inputs)
    (Hconv : cfg.hasConv = true →
      ∀ xs l, l ≤ List.length xs → P.convOutSize l ≤ (P.conv xs).length)
    (Hrun : ∀ k xs, ((P.cells k).run xs).length = xs.length) :
    (∃ r, forward P cfg inputs lens = .ok r) ∧
    (∀ (lensT : List ℕ) (i : ℕ) (out1 : Tensor3) (res : List Tensor3),
      lensT ≠ (padPackedSequence out1).2 →
      unpadBranch P cfg lensT i out1 res = .error .assertLen) := by
  constructor
  · obtain ⟨r, hr, -, -, -⟩ := forward_ok_shape hsub1 hsub2 H1 Hconv Hrun
    exact ⟨r, hr⟩
  · intro lensT i out1 res hne
    unfold unpadBranch
    rw [if_neg hne]

theorem forward_length_invariant_witness :
    ∃ r, forward paramsId encCfgA inputsA [3,5,4] = .ok r :=
  (forward_length_invariant (by decide) (by decide)
    (List.Forall₂.cons (by decide)
      (List.Forall₂.cons (by decide)
        (List.Forall₂.cons (by decide) List.Forall₂.nil)))
    (by intro hc; exact absurd hc (by decide))
    (fun k xs => rfl)).1

end HRNN

namespace HRNN

/-- The padded time dimension of a batch-major output tensor. -/
def timeDim (t : Tensor3) : ℕ := maxNat (t.map List.length)

/-- The configuration of the C9 end-to-end scenario: unidirectional, two
layers, sub tap at layer one, no projection, no residual modes, no front-end,
hidden width `n`. -/
def encCfgB (n : ℕ) : EncCfg :=
  { bidirectional := false, numUnits := n, numProj := 0, numLayers := 2, numLayersSub := 1,
    mergeBidirectional := false, residual := false, denseResidual := false, hasConv := false }

/-- C9: three sequences of lengths `[5, 3, 4]`, no front-end, unidirectional,
two layers, sub tap at layer one: the padded time dimension of both the final
and the sub output is `5`, and the returned permutation is `[0, 2, 1]`. -/
theorem scenario_batch3 (P : Params) (n : ℕ) (inputs : Tensor3)
    (hlen : inputs.length = 3) (hrows : ∀ r ∈ inputs, List.length r = 5)
    (Hrun : ∀ k xs, ((P.cells k).run xs).length = xs.length) :
    ∃ r, forward P (encCfgB n) inputs [5,3,4] = .ok r ∧
      timeDim r.outputs = 5 ∧ timeDim r.outputsSub = 5 ∧ r.permIndices = [0,2,1] := by
  obtain ⟨a, b, c, rfl⟩ := List.length_eq_three.mp hlen
  have H1 : List.Forall₂ (fun l (r : List Vec) => l ≤ r.length) [5,3,4] [a,b,c] := by
    refine List.Forall₂.cons ?_ (List.Forall₂.cons ?_ (List.Forall₂.cons ?_ List.Forall₂.nil))
    · rw [hrows a (by simp)]
    · rw [hrows b (by simp)]; omega
    · rw [hrows c (by simp)]; omega
  obtain ⟨r, hr, hperm, hout, hsub⟩ :=
    @forward_ok_shape P (encCfgB n) [a, b, c] [5,3,4] (by simp [encCfgB])
      (by simp [encCfgB]) H1 (by intro hc; simp [encCfgB] at hc) Hrun
  have hlt : fwdLensTracked P (encCfgB n) [5,3,4] = [5,4,3] := by
    unfold fwdLensTracked
    rw [if_neg (by simp [encCfgB])]
    rfl
  refine ⟨r, hr, ?_, ?_, ?_⟩
  · rw [timeDim, hout, hlt]; rfl
  · rw [timeDim, hsub, hlt]; rfl
  · rw [hperm]; rfl

theorem scenario_batch3_witness :
    ∃ r, forward paramsId (encCfgB 1) inputsA [5,3,4] = .ok r ∧
      timeDim r.outputs = 5 ∧ timeDim r.outputsSub = 5 ∧ r.permIndices = [0,2,1] :=
  scenario_batch3 paramsId 1 inputsA rfl (by decide) (fun k xs => rfl)

/-! ### Splitting the layer loop. -/

theorem encLoop_append (P : Params) (cfg : EncCfg) (lensT : List ℕ) :
    ∀ (l1 l2 : List ℕ) (st : LoopState),
      encLoop P cfg lensT (l1 ++ l2) st =
        match encLoop P cfg lensT l1 st with
        | .ok st1 => encLoop P cfg lensT l2 st1
        | .error e => .error e := by
  intro l1
  induction l1 with
  | nil => intro l2 st; rfl
  | cons i rest ih =>
    intro l2 st
    rw [List.cons_append, encLoop, encLoop]
    cases layerStep P cfg lensT i st with
    | ok st1 => exact ih l2 st1
    | error e => rfl

/-- C10: when the sub-layer index equals the layer count, the sub-task
results returned by `forward` coincide with the main results. -/
theorem sub_outputs_coincide {P : Params} {cfg : EncCfg} {inputs : Tensor3}
    {lens : List ℕ} {r : FwdResult} (hLS : cfg.numLayersSub = cfg.numLayers)
    (h : forward P cfg inputs lens = .ok r) :
    r.outputsSub = r.outputs ∧ r.finalStateFwSub = r.finalStateFw := by
  cases hloop : encLoop P cfg (fwdLensTracked P cfg lens) (List.range cfg.numLayers)
      (initState (fwdPacked0 P cfg inputs lens)) with
  | error e =>
    rw [forward, hloop] at h
    exact Except.noConfusion h
  | ok stN =>
    have hfin : finishPost cfg (fwdLensTracked P cfg lens) (argsortDesc lens) stN = .ok r := by
      rw [forward_eq_finishPost hloop] at h
      exact h
    cases hL : cfg.numLayers with
    | zero =>
      rw [hL, List.range_zero] at hloop
      have hstN : stN = initState (fwdPacked0 P cfg inputs lens) := by
        unfold encLoop at hloop
        injection hloop with hloop
        exact hloop.symm
      rw [hstN] at hfin
      unfold finishPost initState at hfin
      exact Except.noConfusion hfin
    | succ L' =>
      rw [hL, List.range_succ] at hloop
      rw [encLoop_append] at hloop
      cases h1 : encLoop P cfg (fwdLensTracked P cfg lens) (List.range L')
          (initState (fwdPacked0 P cfg inputs lens)) with
      | error e => rw [h1] at hloop; exact Except.noConfusion hloop
      | ok st1 =>
        rw [h1] at hloop
        have hloop1 : encLoop P cfg (fwdLensTracked P cfg lens) [L'] st1 = .ok stN := hloop
        cases h2 : layerStep P cfg (fwdLensTracked P cfg lens) L' st1 with
        | error e => rw [encLoop, h2] at hloop1; exact Except.noConfusion hloop1
        | ok st2 =>
          rw [encLoop, h2] at hloop1
          have hstN : (Except.ok st2 : Except Err LoopState) = .ok stN := hloop1
          have hstN2 : st2 = stN := by injection hstN
          subst hstN2
          have htap := layerStep_tap (by omega) h2
          rw [finishPost_some htap.1 htap.2] at hfin
          by_cases hc1 : fwdLensTracked P cfg lens = (padPackedSequence st2.packed).2
          · rw [if_pos hc1, if_pos hc1] at hfin
            injection hfin with hfin
            subst hfin
            exact ⟨rfl, rfl⟩
          · rw [if_neg hc1] at hfin
            exact Except.noConfusion hfin

theorem sub_outputs_coincide_witness :
    resultA.outputsSub = resultA.outputs ∧
    resultA.finalStateFwSub = resultA.finalStateFw :=
  @sub_outputs_coincide paramsId encCfgA inputsA [3,5,4] resultA rfl rfl

end HRNN

namespace HRNN

/-- Constructor arguments with both residual modes enabled (otherwise valid). -/
def argsBoth : InitArgs :=
  { rnnType := "lstm", numUnits := 1, numProj := none, numLayers := 2, numLayersSub := 1,
    numStack := 1, splice := 1, convChannels := [], convKernelSizes := [],
    convStrides := [], residual := true, denseResidual := true }

theorem init_residual_conflict_witness : ∃ e, initCheck argsBoth = .error e :=
  (init_residual_conflict argsBoth).1 ⟨rfl, rfl⟩

/-- Constructor arguments with a sub-layer index of `0` (otherwise valid). -/
def argsBadSub : InitArgs :=
  { rnnType := "lstm", numUnits := 1, numProj := none, numLayers := 2, numLayersSub := 0,
    numStack := 1, splice := 1, convChannels := [], convKernelSizes := [],
    convStrides := [], residual := false, denseResidual := false }

theorem init_numLayersSub_range_witness :
    initCheck argsBadSub = .error .badNumLayersSub :=
  (init_numLayersSub_range argsBadSub).1 (Or.inl (by decide))

theorem residual_accumulation_rule_witness :
    residualBlock true false [[[1]]] [[[[2]]]] =
      (([[[[2]]]] : List Tensor3).foldl addT [[[1]]],
       [([[[[2]]]] : List Tensor3).foldl addT [[[1]]]]) :=
  residual_accumulation_rule.1 [[[1]]] [[[[2]]]]

/-- A configuration with a projection layer and two recurrent layers. -/
def encCfgP : EncCfg :=
  { bidirectional := false, numUnits := 1, numProj := 2, numLayers := 2, numLayersSub := 1,
    mergeBidirectional := false, residual := false, denseResidual := false, hasConv := false }

theorem projection_skips_last_witness :
    unpadBranch paramsId encCfgP [1] 0 [[[1]]] [] =
      .ok (packPaddedSequence
            (residualBlock encCfgP.residual encCfgP.denseResidual
              (mapProj paramsId 0 (padPackedSequence [[[1]]]).1) []).1
            (padPackedSequence [[[1]]]).2,
           (residualBlock encCfgP.residual encCfgP.denseResidual
              (mapProj paramsId 0 (padPackedSequence [[[1]]]).1) []).2) :=
  (projection_skips_last paramsId encCfgP [1] 0 [[[1]]] [] (by decide) (by decide)).1
    (by decide)

end HRNN

namespace HRNN

/-! ### Feature-width bookkeeping. -/

/-- Every feature vector of the tensor has width `w`. -/
def VW (t : Tensor3) (w : ℕ) : Prop := ∀ r ∈ t, ∀ v ∈ r, List.length v = w

theorem VW_runCell {c : RNNCell} {w : ℕ} (D : ℕ) (packed : Tensor3)
    (HrunW : ∀ xs v, v ∈ c.run xs → List.length v = w) :
    VW (runCell c D packed).1 w := by
  intro r hr v hv
  obtain ⟨xs, _, rfl⟩ := List.mem_map.mp hr
  exact HrunW xs v hv

theorem featWidth_eq {t : Tensor3} {w : ℕ} (ht : t ≠ [])
    (hh : (t.headD []).length ≠ 0) (hw : VW t w) : featWidth t = w := by
  cases t with
  | nil => exact absurd rfl ht
  | cons r t' =>
    cases r with
    | nil => simp at hh
    | cons v r' =>
      exact hw (v :: r') (by simp) v (by simp)

theorem VW_pad {t : Tensor3} {w : ℕ} (ht : t ≠ [])
    (hh : (t.headD []).length ≠ 0) (hw : VW t w) :
    VW (padPackedSequence t).1 w := by
  intro r hr v hv
  simp only [padPackedSequence, List.mem_map] at hr
  obtain ⟨r0, hr0, rfl⟩ := hr
  rcases List.mem_append.mp hv with h | h
  · exact hw r0 hr0 v h
  · rw [List.eq_of_mem_replicate h, List.length_replicate]
    exact featWidth_eq ht hh hw

theorem VW_mapProj {P : Params} {i w' : ℕ} (t : Tensor3)
    (HprojW : ∀ v, (P.projs i v).length = w') :
    VW (mapProj P i t) w' := by
  intro r hr v hv
  obtain ⟨r0, _, rfl⟩ := List.mem_map.mp hr
  obtain ⟨v0, _, rfl⟩ := List.mem_map.mp hv
  exact HprojW v0

theorem mem_zipWith_vecs {w : ℕ} : ∀ {ra rb : List Vec},
    (∀ v ∈ ra, List.length v = w) → (∀ v ∈ rb, List.length v = w) →
    ∀ v ∈ List.zipWith (fun va vb => List.zipWith (fun x y => x + y) va vb) ra rb,
      List.length v = w := by
  intro ra
  induction ra with
  | nil => intro rb _ _ v hv; simp at hv
  | cons va ra ih =>
    intro rb ha hb v hv
    cases rb with
    | nil => simp at hv
    | cons vb rb =>
      simp only [List.zipWith_cons_cons] at hv
      rcases List.mem_cons.mp hv with h | h
      · subst h
        rw [List.length_zipWith, ha va (by simp), hb vb (by simp)]
        omega
      · exact ih (fun u hu => ha u (by simp [hu])) (fun u hu => hb u (by simp [hu])) v h

theorem VW_addT {w : ℕ} : ∀ {a b : Tensor3}, VW a w → VW b w → VW (addT a b) w := by
  intro a
  induction a with
  | nil => intro b _ _ r hr; simp [addT] at hr
  | cons ra a ih =>
    intro b ha hb r hr
    cases b with
    | nil => simp [addT] at hr
    | cons rb b =>
      simp only [addT, List.zipWith_cons_cons] at hr
      rcases List.mem_cons.mp hr with h | h
      · subst h
        exact mem_zipWith_vecs (ha ra (by simp)) (hb rb (by simp))
      · exact ih (fun u hu => ha u (by simp [hu])) (fun u hu => hb u (by simp [hu])) r h

theorem VW_foldl_addT {w : ℕ} :
    ∀ (res : List Tensor3) (cur : Tensor3), VW cur w → (∀ t ∈ res, VW t w) →
      VW (res.foldl addT cur) w := by
  intro res
  induction res with
  | nil => intro cur h _; exact h
  | cons t res ih =>
    intro cur h1 h2
    exact ih (addT cur t) (VW_addT h1 (h2 t (by simp))) (fun u hu => h2 u (by simp [hu]))

theorem VW_residualBlock {w : ℕ} (rb db : Bool) (cur : Tensor3) (res : List Tensor3)
    (h1 : VW cur w) (h2 : ∀ t ∈ res, VW t w) :
    VW (residualBlock rb db cur res).1 w ∧
      (∀ t ∈ (residualBlock rb db cur res).2, VW t w) := by
  unfold residualBlock
  split
  · have hs := VW_foldl_addT res cur h1 h2
    split
    · refine ⟨hs, ?_⟩
      intro t ht
      simp only [List.mem_singleton] at ht
      subst ht
      exact hs
    · refine ⟨hs, ?_⟩
      intro t ht
      rcases List.mem_append.mp ht with h | h
      · exact h2 t h
      · simp only [List.mem_singleton] at h
        subst h
        exact hs
  · exact ⟨h1, h2⟩

theorem VW_pack {w : ℕ} : ∀ {t : Tensor3} (lens : List ℕ), VW t w →
    VW (packPaddedSequence t lens) w := by
  intro t
  induction t with
  | nil => intro lens _ r hr; simp [packPaddedSequence] at hr
  | cons r0 t ih =>
    intro lens hw r hr
    cases lens with
    | nil => simp [packPaddedSequence] at hr
    | cons l lens =>
      simp only [packPaddedSequence, List.zipWith_cons_cons] at hr
      rcases List.mem_cons.mp hr with h | h
      · subst h
        intro v hv
        exact hw r0 (by simp) v (List.mem_of_mem_take hv)
      · exact ih lens (fun u hu => hw u (by simp [hu])) r h

theorem VW_mergeBi {u : ℕ} {t : Tensor3} (h : VW t (2 * u)) :
    VW (mergeBi u t) u := by
  intro r hr v hv
  obtain ⟨r0, hr0, rfl⟩ := List.mem_map.mp hr
  obtain ⟨v0, hv0, rfl⟩ := List.mem_map.mp hv
  have := h r0 hr0 v0 hv0
  rw [List.length_zipWith, List.length_take, List.length_drop, this]
  omega

end HRNN

namespace HRNN

/-! ### The feature-width invariant of the layer loop. -/

theorem tapSub_width {cfg : EncCfg} {i : ℕ} {st : LoopState} {w : ℕ}
    (h1 : VW st.packed w) (h2 : ∀ t ∈ st.resList, VW t w)
    (h3 : ∀ s, st.subOut = some s → VW s w) :
    VW (tapSub cfg i st).packed w ∧ (∀ t ∈ (tapSub cfg i st).resList, VW t w) ∧
      (∀ s, (tapSub cfg i st).subOut = some s → VW s w) := by
  unfold tapSub
  split
  · exact ⟨h1, h2, by intro s hs; injection hs with hs; subst hs; exact h1⟩
  · exact ⟨h1, h2, h3⟩

theorem nonempty_of_lens {t : Tensor3} {lensT : List ℕ} (h : t.map List.length = lensT)
    (hne : lensT ≠ []) (hpos : ∀ l ∈ lensT, 1 ≤ l) :
    t ≠ [] ∧ (t.headD []).length ≠ 0 := by
  cases t with
  | nil =>
    cases lensT with
    | nil => exact absurd rfl hne
    | cons a l => simp at h
  | cons r t' =>
    refine ⟨by simp, ?_⟩
    have hr : r.length ∈ lensT := by rw [← h]; simp
    have := hpos _ hr
    simp only [List.headD_cons]
    omega

theorem layerStep_width {P : Params} {cfg : EncCfg} {lensT : List ℕ} {i : ℕ}
    {st st' : LoopState} {w : ℕ}
    (hne : lensT ≠ []) (hpos : ∀ l ∈ lensT, 1 ≤ l)
    (Hrun : ∀ xs, ((P.cells i).run xs).length = xs.length)
    (HrunW : ∀ xs v, v ∈ (P.cells i).run xs → List.length v = w)
    (HprojW : ∀ v, (P.projs i v).length = cfg.numProj)
    (hproj : cfg.numProj = 0 ∨ cfg.numProj = w)
    (hlen : st.packed.map List.length = lensT)
    (hres : ∀ t ∈ st.resList, VW t w)
    (hsub : ∀ s, st.subOut = some s → VW s w)
    (h : layerStep P cfg lensT i st = .ok st') :
    VW st'.packed w ∧ (∀ t ∈ st'.resList, VW t w) ∧
      (∀ s, st'.subOut = some s → VW s w) := by
  have hVWout : VW (runCell (P.cells i) cfg.numDirections st.packed).1 w :=
    VW_runCell _ _ HrunW
  have hlout : ((runCell (P.cells i) cfg.numDirections st.packed).1).map List.length = lensT :=
    (runCell_fst_lens _ _ _ Hrun).trans hlen
  obtain ⟨hone, htwo⟩ := nonempty_of_lens hlout hne hpos
  unfold layerStep at h
  split at h
  · split at h
    · rename_i pr hub
      injection h with h
      subst h
      have hpr : VW pr.1 w ∧ ∀ t ∈ pr.2, VW t w := by
        unfold unpadBranch at hub
        split at hub
        · injection hub with hub
          subst hub
          have hpadw : VW (padPackedSequence (runCell (P.cells i) cfg.numDirections st.packed).1).1 w :=
            VW_pad hone htwo hVWout
          have hprojw : VW (if 0 < cfg.numProj ∧ (i : ℤ) ≠ (cfg.numLayers : ℤ) - 1
              then mapProj P i (padPackedSequence (runCell (P.cells i) cfg.numDirections st.packed).1).1
              else (padPackedSequence (runCell (P.cells i) cfg.numDirections st.packed).1).1) w := by
            split
            · rename_i hcond
              rcases hproj with h0 | hw
              · omega
              · rw [← hw]
                exact VW_mapProj _ (HprojW)
            · exact hpadw
          have hrb := VW_residualBlock cfg.residual cfg.denseResidual _ st.resList hprojw hres
          exact ⟨VW_pack _ hrb.1, hrb.2⟩
        · exact Except.noConfusion hub
      exact tapSub_width hpr.1 hpr.2 hsub
    · exact Except.noConfusion h
  · injection h with h
    subst h
    exact tapSub_width hVWout hres hsub

theorem encLoop_width {P : Params} {cfg : EncCfg} {lensT : List ℕ} {w : ℕ}
    (hne : lensT ≠ []) (hpos : ∀ l ∈ lensT, 1 ≤ l)
    (Hrun : ∀ k xs, ((P.cells k).run xs).length = xs.length)
    (HrunW : ∀ k xs v, v ∈ (P.cells k).run xs → List.length v = w)
    (HprojW : ∀ k v, (P.projs k v).length = cfg.numProj)
    (hproj : cfg.numProj = 0 ∨ cfg.numProj = w) :
    ∀ (L : List ℕ) (st st' : LoopState), encLoop P cfg lensT L st = .ok st' →
      LenInv lensT st → (∀ t ∈ st.resList, VW t w) →
      (∀ s, st.subOut = some s → VW s w) →
      (L ≠ [] → VW st'.packed w) ∧ (∀ t ∈ st'.resList, VW t w) ∧
        (∀ s, st'.subOut = some s → VW s w) := by
  intro L
  induction L with
  | nil =>
    intro st st' h hlen hres hsub
    have h0 : (Except.ok st : Except Err LoopState) = .ok st' := h
    injection h0 with h0
    subst h0
    exact ⟨fun hc => absurd rfl hc, hres, hsub⟩
  | cons i rest ih =>
    intro st st' h hlen hres hsub
    cases hls : layerStep P cfg lensT i st with
    | error e => rw [encLoop, hls] at h; exact Except.noConfusion h
    | ok st1 =>
      rw [encLoop, hls] at h
      have h' : encLoop P cfg lensT rest st1 = .ok st' := h
      obtain ⟨st1', heq, hinv1⟩ := layerStep_len Hrun hlen
      rw [hls] at heq
      have heq2 : st1 = st1' := by injection heq
      subst heq2
      have hw1 := layerStep_width hne hpos (Hrun i) (HrunW i) (HprojW i) hproj
        hlen.1 hres hsub hls
      cases rest with
      | nil =>
        have h0 : (Except.ok st1 : Except Err LoopState) = .ok st' := h'
        injection h0 with h0
        subst h0
        exact ⟨fun _ => hw1.1, hw1.2.1, hw1.2.2⟩
      | cons j rest' =>
        obtain ⟨hwp', hwres', hwsub'⟩ := ih st1 st' h' hinv1 hw1.2.1 hw1.2.2
        exact ⟨fun _ => hwp' (by simp), hwres', hwsub'⟩

end HRNN

namespace HRNN

/-! ### Entry lengths of the tracked-length list. -/

theorem fwdLensTracked_pos {P : Params} {cfg : EncCfg} {lens : List ℕ}
    (hpos : ∀ l ∈ lens, 1 ≤ l)
    (HconvPos : cfg.hasConv = true → ∀ l, 1 ≤ l → 1 ≤ P.convOutSize l) :
    ∀ l ∈ fwdLensTracked P cfg lens, 1 ≤ l := by
  have hgd : ∀ i ∈ argsortDesc lens, 1 ≤ lens.getD i 0 := by
    intro i hi
    have hlt := (argsortDesc_mem lens i).mp hi
    rw [List.getD_eq_getElem _ _ hlt]
    exact hpos _ (List.getElem_mem hlt)
  unfold fwdLensTracked
  cases hc : cfg.hasConv with
  | false =>
    simp only [Bool.false_eq_true, if_false]
    intro l hl
    obtain ⟨i, hi, rfl⟩ := List.mem_map.mp hl
    exact hgd i hi
  | true =>
    simp only [if_true]
    intro l hl
    rw [applyPerm] at hl
    simp only [List.map_map, List.mem_map] at hl
    obtain ⟨i, hi, rfl⟩ := hl
    exact HconvPos hc _ (hgd i hi)

theorem fwdLensTracked_ne_nil {P : Params} {cfg : EncCfg} {lens : List ℕ}
    (h : lens ≠ []) : fwdLensTracked P cfg lens ≠ [] := by
  intro hc
  have := fwdLensTracked_length P cfg lens
  rw [hc] at this
  exact h (List.eq_nil_of_length_eq_zero this.symm)

/-- C7: with a bidirectional encoder and merge enabled (and the external
collaborators producing their documented shapes), both the final and the sub
output are collapsed by the same `mergeBi` rule — elementwise sum of the
first `num_units` features with the last `num_units` features — so every
feature vector of both merged outputs has width exactly `num_units`. -/
theorem forward_merge_width {P : Params} {cfg : EncCfg} {inputs : Tensor3}
    {lens : List ℕ}
    (hbi : cfg.bidirectional = true) (hmg : cfg.mergeBidirectional = true)
    (hsub1 : 1 ≤ cfg.numLayersSub) (hsub2 : cfg.numLayersSub ≤ cfg.numLayers)
    (H1 : List.Forall₂ (fun l (r : List Vec) => l ≤ r.length) lens inputs)
    (hlne : lens ≠ []) (hpos : ∀ l ∈ lens, 1 ≤ l)
    (Hconv : cfg.hasConv = true →
      ∀ xs l, l ≤ List.length xs → P.convOutSize l ≤ (P.conv xs).length)
    (HconvPos : cfg.hasConv = true → ∀ l, 1 ≤ l → 1 ≤ P.convOutSize l)
    (Hrun : ∀ k xs, ((P.cells k).run xs).length = xs.length)
    (HrunW : ∀ k xs v, v ∈ (P.cells k).run xs → List.length v = 2 * cfg.numUnits)
    (HprojW : ∀ k v, (P.projs k v).length = cfg.numProj)
    (hproj : cfg.numProj = 0 ∨ cfg.numProj = 2 * cfg.numUnits) :
    ∃ r, forward P cfg inputs lens = .ok r ∧
      VW r.outputs cfg.numUnits ∧ VW r.outputsSub cfg.numUnits := by
  have hinv0 : LenInv (fwdLensTracked P cfg lens) (initState (fwdPacked0 P cfg inputs lens)) := by
    refine ⟨fwdPacked0_lens P cfg H1 Hconv, ?_, ?_⟩
    · intro t ht; simp [initState] at ht
    · intro s hs; simp [initState] at hs
  obtain ⟨stN, hloop, hinv⟩ := encLoop_len Hrun (List.range cfg.numLayers) _ hinv0
  have hTne : fwdLensTracked P cfg lens ≠ [] := fwdLensTracked_ne_nil hlne
  have hTpos : ∀ l ∈ fwdLensTracked P cfg lens, 1 ≤ l := fwdLensTracked_pos hpos HconvPos
  have hLne : List.range cfg.numLayers ≠ [] := by
    intro hc
    rw [List.range_eq_nil] at hc
    omega
  obtain ⟨hwp, hwres, hwsub⟩ :=
    encLoop_width hTne hTpos Hrun HrunW HprojW hproj _ _ _ hloop hinv0
      (by intro t ht; simp [initState] at ht)
      (by intro s hs; simp [initState] at hs)
  have hwpacked : VW stN.packed (2 * cfg.numUnits) := hwp hLne
  have hj : ((cfg.numLayersSub - 1 : ℕ) : ℤ) = (cfg.numLayersSub : ℤ) - 1 := by omega
  have hmem : cfg.numLayersSub - 1 ∈ List.range cfg.numLayers :=
    List.mem_range.mpr (by omega)
  obtain ⟨hso, hsh⟩ := encLoop_taps hj _ _ _ hmem hloop
  obtain ⟨s, hs⟩ := Option.isSome_iff_exists.mp hso
  obtain ⟨hn, hhn⟩ := Option.isSome_iff_exists.mp hsh
  have hslen : s.map List.length = fwdLensTracked P cfg lens := hinv.2.2 s hs
  have hmain : stN.packed.map List.length = fwdLensTracked P cfg lens := hinv.1
  have hws : VW s (2 * cfg.numUnits) := hwsub s hs
  have hmerge : ∀ t, mergeIf cfg t = mergeBi cfg.numUnits t := by
    intro t; unfold mergeIf; rw [if_pos ⟨hbi, hmg⟩]
  obtain ⟨hone, htwo⟩ := nonempty_of_lens hmain hTne hTpos
  obtain ⟨hone', htwo'⟩ := nonempty_of_lens hslen hTne hTpos
  refine ⟨{ outputs := mergeIf cfg (padPackedSequence stN.packed).1,
            finalStateFw := extractFw cfg.numDirections stN.hN,
            outputsSub := mergeIf cfg (padPackedSequence s).1,
            finalStateFwSub := extractFw cfg.numDirections hn,
            permIndices := argsortDesc lens }, ?_, ?_, ?_⟩
  · rw [forward_eq_finishPost hloop, finishPost_some hs hhn]
    simp only [pad_snd, hslen, hmain, if_pos rfl, eq_self_iff_true, if_true]
  · simp only [hmerge]
    exact VW_mergeBi (VW_pad hone htwo hwpacked)
  · simp only [hmerge]
    exact VW_mergeBi (VW_pad hone' htwo' hws)

end HRNN

namespace HRNN

/-! ### Shape of the stacked hidden states. -/

/-- `h_n` has leading dimension `D` (directions), then batch size `B`, then
hidden width `u`. -/
def HNshape (D B u : ℕ) (hN : List (List Vec)) : Prop :=
  hN.length = D ∧ ∀ m ∈ hN, m.length = B ∧ ∀ v ∈ m, List.length v = u

theorem layerStep_hN {P : Params} {cfg : EncCfg} {lensT : List ℕ} {i : ℕ}
    {st st' : LoopState} {u : ℕ}
    (HfinW : ∀ d xs, (((P.cells i).hfin d) xs).length = u)
    (hlen : st.packed.map List.length = lensT)
    (h : layerStep P cfg lensT i st = .ok st') :
    HNshape cfg.numDirections lensT.length u st'.hN := by
  have hB : st.packed.length = lensT.length := by
    calc st.packed.length = (st.packed.map List.length).length := by simp
    _ = lensT.length := by rw [hlen]
  have hshape : HNshape cfg.numDirections lensT.length u
      (runCell (P.cells i) cfg.numDirections st.packed).2 := by
    constructor
    · simp [runCell]
    · intro m hm
      simp only [runCell, List.mem_map] at hm
      obtain ⟨d, _, rfl⟩ := hm
      refine ⟨by simp [hB], ?_⟩
      intro v hv
      obtain ⟨xs, _, rfl⟩ := List.mem_map.mp hv
      exact HfinW d xs
  unfold layerStep at h
  split at h
  · split at h
    · injection h with h
      subst h
      unfold tapSub
      split <;> exact hshape
    · exact Except.noConfusion h
  · injection h with h
    subst h
    unfold tapSub
    split <;> exact hshape

theorem layerStep_subHN_cases {P : Params} {cfg : EncCfg} {lensT : List ℕ} {i : ℕ}
    {st st' : LoopState} (h : layerStep P cfg lensT i st = .ok st') :
    st'.subHN = st.subHN ∨ st'.subHN = some st'.hN := by
  unfold layerStep at h
  split at h
  · split at h
    · injection h with h
      subst h
      unfold tapSub
      split
      · right; rfl
      · left; rfl
    · exact Except.noConfusion h
  · injection h with h
    subst h
    unfold tapSub
    split
    · right; rfl
    · left; rfl

/-- Any retained `h_n_sub` snapshot has the stacked hidden-state shape. -/
def SubHNOK (D B u : ℕ) (st : LoopState) : Prop :=
  ∀ hn, st.subHN = some hn → HNshape D B u hn

theorem encLoop_hN {P : Params} {cfg : EncCfg} {lensT : List ℕ} {u : ℕ}
    (Hrun : ∀ k xs, ((P.cells k).run xs).length = xs.length)
    (HfinW : ∀ k d xs, (((P.cells k).hfin d) xs).length = u) :
    ∀ (L : List ℕ) (st st' : LoopState), encLoop P cfg lensT L st = .ok st' →
      LenInv lensT st → SubHNOK cfg.numDirections lensT.length u st →
      (L ≠ [] → HNshape cfg.numDirections lensT.length u st'.hN) ∧
        SubHNOK cfg.numDirections lensT.length u st' := by
  intro L
  induction L with
  | nil =>
    intro st st' h hlen hs
    have h0 : (Except.ok st : Except Err LoopState) = .ok st' := h
    injection h0 with h0
    subst h0
    exact ⟨fun hc => absurd rfl hc, hs⟩
  | cons i rest ih =>
    intro st st' h hlen hs
    cases hls : layerStep P cfg lensT i st with
    | error e => rw [encLoop, hls] at h; exact Except.noConfusion h
    | ok st1 =>
      rw [encLoop, hls] at h
      have h' : encLoop P cfg lensT rest st1 = .ok st' := h
      obtain ⟨st1', heq, hinv1⟩ := layerStep_len Hrun hlen
      rw [hls] at heq
      have heq2 : st1 = st1' := by injection heq
      subst heq2
      have hN1 : HNshape cfg.numDirections lensT.length u st1.hN :=
        layerStep_hN (HfinW i) hlen.1 hls
      have hsub1 : SubHNOK cfg.numDirections lensT.length u st1 := by
        rcases layerStep_subHN_cases hls with hc | hc
        · intro hn hhn; rw [hc] at hhn; exact hs hn hhn
        · intro hn hhn
          rw [hc] at hhn
          injection hhn with hhn
          subst hhn
          exact hN1
      cases rest with
      | nil =>
        have h0 : (Except.ok st1 : Except Err LoopState) = .ok st' := h'
        injection h0 with h0
        subst h0
        exact ⟨fun _ => hN1, hsub1⟩
      | cons j rest' =>
        obtain ⟨hhn', hsub'⟩ := ih st1 st' h' hinv1 hsub1
        exact ⟨fun _ => hhn' (by simp), hsub'⟩

theorem extractFw_shape {D B u : ℕ} {hN : List (List Vec)} (hD : D = 1 ∨ D = 2)
    (h : HNshape D B u hN) :
    (extractFw D hN).length = 1 ∧
      ∀ m ∈ extractFw D hN, m.length = B ∧ ∀ v ∈ m, List.length v = u := by
  obtain ⟨h1, h2⟩ := h
  rcases hD with rfl | rfl
  · unfold extractFw
    rw [if_neg (by decide)]
    cases hN with
    | nil => simp at h1
    | cons m0 t =>
      have ht : t = [] := List.length_eq_zero.mp (by simpa using h1)
      subst ht
      refine ⟨rfl, ?_⟩
      intro m hm
      simp only [List.length_singleton, List.getD, Nat.sub_self] at hm
      simp only [List.mem_singleton] at hm
      subst hm
      exact h2 m (by simp [List.getD])
  · unfold extractFw
    rw [if_pos rfl]
    cases hN with
    | nil => simp at h1
    | cons m0 t =>
      cases t with
      | nil => simp at h1
      | cons m1 t' =>
        have ht : t' = [] := List.length_eq_zero.mp (by simpa using h1)
        subst ht
        refine ⟨rfl, ?_⟩
        intro m hm
        have hcalc : (([m0, m1] : List (List Vec)).drop (([m0, m1] : List (List Vec)).length - 2)).take 1 = [m0] := rfl
        rw [hcalc] at hm
        have hm2 : m = m0 := List.mem_singleton.mp hm
        rw [hm2]
        exact h2 m0 (by simp)

end HRNN

namespace HRNN

/-- C8: on well-formed inputs, the returned `final_state_fw` and
`final_state_fw_sub` — the second-to-last slice of the stacked hidden state
when bidirectional (the forward half of the last layer, kept as a length-1
leading dimension, `extractFw`), the unsqueezed last slice otherwise — each
have size `[1, B, num_units]`. -/
theorem forward_final_state_shape {P : Params} {cfg : EncCfg} {inputs : Tensor3}
    {lens : List ℕ}
    (hsub1 : 1 ≤ cfg.numLayersSub) (hsub2 : cfg.numLayersSub ≤ cfg.numLayers)
    (H1 : List.Forall₂ (fun l (r : List Vec) => l ≤ r.length) lens inputs)
    (Hconv : cfg.hasConv = true →
      ∀ xs l, l ≤ List.length xs → P.convOutSize l ≤ (P.conv xs).length)
    (Hrun : ∀ k xs, ((P.cells k).run xs).length = xs.length)
    (HfinW : ∀ k d xs, (((P.cells k).hfin d) xs).length = cfg.numUnits) :
    ∃ r, forward P cfg inputs lens = .ok r ∧
      r.finalStateFw.length = 1 ∧
      (∀ m ∈ r.finalStateFw, m.length = lens.length ∧
        ∀ v ∈ m, List.length v = cfg.numUnits) ∧
      r.finalStateFwSub.length = 1 ∧
      (∀ m ∈ r.finalStateFwSub, m.length = lens.length ∧
        ∀ v ∈ m, List.length v = cfg.numUnits) := by
  have hinv0 : LenInv (fwdLensTracked P cfg lens) (initState (fwdPacked0 P cfg inputs lens)) := by
    refine ⟨fwdPacked0_lens P cfg H1 Hconv, ?_, ?_⟩
    · intro t ht; simp [initState] at ht
    · intro s hs; simp [initState] at hs
  obtain ⟨stN, hloop, hinv⟩ := encLoop_len Hrun (List.range cfg.numLayers) _ hinv0
  have hLne : List.range cfg.numLayers ≠ [] := by
    intro hc
    rw [List.range_eq_nil] at hc
    omega
  obtain ⟨hhN, hsubHN⟩ :=
    encLoop_hN Hrun HfinW _ _ _ hloop hinv0
      (by intro hn hhn; simp [initState] at hhn)
  have hNshape := hhN hLne
  have hj : ((cfg.numLayersSub - 1 : ℕ) : ℤ) = (cfg.numLayersSub : ℤ) - 1 := by omega
  have hmem : cfg.numLayersSub - 1 ∈ List.range cfg.numLayers :=
    List.mem_range.mpr (by omega)
  obtain ⟨hso, hsh⟩ := encLoop_taps hj _ _ _ hmem hloop
  obtain ⟨s, hs⟩ := Option.isSome_iff_exists.mp hso
  obtain ⟨hn, hhn⟩ := Option.isSome_iff_exists.mp hsh
  have hslen : s.map List.length = fwdLensTracked P cfg lens := hinv.2.2 s hs
  have hmain : stN.packed.map List.length = fwdLensTracked P cfg lens := hinv.1
  have hsubshape := hsubHN hn hhn
  have hD : cfg.numDirections = 1 ∨ cfg.numDirections = 2 := by
    unfold EncCfg.numDirections
    cases cfg.bidirectional <;> simp
  have hBeq : (fwdLensTracked P cfg lens).length = lens.length :=
    fwdLensTracked_length P cfg lens
  rw [hBeq] at hNshape hsubshape
  obtain ⟨he1, he2⟩ := extractFw_shape hD hNshape
  obtain ⟨hf1, hf2⟩ := extractFw_shape hD hsubshape
  refine ⟨{ outputs := mergeIf cfg (padPackedSequence stN.packed).1,
            finalStateFw := extractFw cfg.numDirections stN.hN,
            outputsSub := mergeIf cfg (padPackedSequence s).1,
            finalStateFwSub := extractFw cfg.numDirections hn,
            permIndices := argsortDesc lens }, ?_, he1, he2, hf1, hf2⟩
  rw [forward_eq_finishPost hloop, finishPost_some hs hhn]
  simp only [pad_snd, hslen, hmain, if_pos rfl, eq_self_iff_true, if_true]

end HRNN

namespace HRNN

theorem forward_final_state_shape_witness :
    ∃ r, forward paramsId encCfgA inputsA [3,5,4] = .ok r ∧
      r.finalStateFw.length = 1 ∧
      (∀ m ∈ r.finalStateFw, m.length = ([3,5,4] : List ℕ).length ∧
        ∀ v ∈ m, List.length v = encCfgA.numUnits) ∧
      r.finalStateFwSub.length = 1 ∧
      (∀ m ∈ r.finalStateFwSub, m.length = ([3,5,4] : List ℕ).length ∧
        ∀ v ∈ m, List.length v = encCfgA.numUnits) :=
  forward_final_state_shape (by decide) (by decide)
    (List.Forall₂.cons (by decide)
      (List.Forall₂.cons (by decide)
        (List.Forall₂.cons (by decide) List.Forall₂.nil)))
    (by intro hc; exact absurd hc (by decide))
    (fun k xs => rfl) (fun k d xs => rfl)

/-- A bidirectional identity-like cell: every output feature vector has width
`2` (two directions of one unit each). -/
def cellBi : RNNCell :=
  { run := fun xs => xs.map (fun _ => [0, 0]), hfin := fun _ _ => [0] }

/-- Collaborators for the bidirectional-merge witness. -/
def paramsBi : Params :=
  { cells := fun _ => cellBi, projs := fun _ _ => [], conv := fun xs => xs,
    convOutSize := fun l => l }

/-- A bidirectional single-layer configuration with merge enabled. -/
def encCfgBi : EncCfg :=
  { bidirectional := true, numUnits := 1, numProj := 0, numLayers := 1, numLayersSub := 1,
    mergeBidirectional := true, residual := false, denseResidual := false, hasConv := false }

theorem forward_merge_width_witness :
    ∃ r, forward paramsBi encCfgBi [[[7]]] [1] = .ok r ∧
      VW r.outputs encCfgBi.numUnits ∧ VW r.outputsSub encCfgBi.numUnits :=
  forward_merge_width rfl rfl (by decide) (by decide)
    (List.Forall₂.cons (by decide) List.Forall₂.nil)
    (by decide) (by decide)
    (by intro hc; exact absurd hc (by decide))
    (by intro hc; exact absurd hc (by decide))
    (fun k xs => List.length_map _ _)
    (by
      intro k xs v hv
      obtain ⟨x, _, rfl⟩ := List.mem_map.mp hv
      rfl)
    (fun k v => rfl)
    (Or.inl rfl)

end HRNN
